import Mathlib

/-!
Shallow embedding of the core of the verifiable data structures service
(batch mutator, instant mutator, log tree-hash service, map client, log
creation) together with theorems settling the specification claims.

Go byte strings are modelled as `List (Fin 256)`; Go strings that are only
inspected byte-wise (map keys built with `hex.EncodeToString`, HTTP header
values) are modelled as `List Nat` of byte values.  Protobuf
marshal/unmarshal is external to the repository and is modelled as an
abstract `Codec`.  Functions of the repository that are not part of the
sources at hand (`ApplyMutation`, `readObjectSize`, `lookupLogTreeHead`,
`lookupLogRootHashBySize`, the KV substrate) are either taken as explicit
parameters or modelled from the spec; each such place is marked in its doc
comment.
-/

set_option autoImplicit false

namespace VDS

/-- Byte strings (`[]byte` in Go). -/
abbrev Bytes : Type := List (Fin 256)

/-- Snapshot of the key/value data visible through a `KeyReader`:
an association list from (bucket, key) to the stored encoded bytes. -/
abbrev KVData : Type := List ((Bytes × Bytes) × Bytes)

/-- First-match lookup in an association list keyed by (bucket, key);
this is the lookup function of a Go map whose updates are modelled by
consing the new binding in front. -/
def kvLookup {α : Type} : List ((Bytes × Bytes) × α) → Bytes → Bytes → Option α
  | [], _, _ => none
  | ((b0, k0), v) :: rest, b, k =>
    if b = b0 ∧ k = k0 then some v else kvLookup rest b k

/-- First-match lookup in an association list keyed by the overlay's
string key (Go `map[string][]byte`); updates are modelled by consing. -/
def mapLookup : List (List Nat × Bytes) → List Nat → Option Bytes
  | [], _ => none
  | (k0, v) :: rest, k => if k = k0 then some v else mapLookup rest k

/-- Byte code of one lowercase hex digit, as produced by Go
`encoding/hex.EncodeToString` (digits then lowercase letters). -/
def hexDigitCode (d : Nat) : Nat := if d < 10 then 48 + d else 87 + d

/-- Hex encoding of one byte: two lowercase hex digit codes. -/
def hexEncByte (b : Fin 256) : List Nat :=
  [hexDigitCode (b.val / 16), hexDigitCode (b.val % 16)]

/-- Go `hex.EncodeToString`: lowercase hex encoding of a byte string. -/
def hexEncode : Bytes → List Nat
  | [] => []
  | b :: rest => hexEncByte b ++ hexEncode rest

/-- The overlay map key built in `mapNoLockDB.Get`/`Set`:
`hex.EncodeToString(bucket) + "|" + hex.EncodeToString(key)`
(124 is the byte code of the bar separator). -/
def keyFor (bucket key : Bytes) : List Nat :=
  hexEncode bucket ++ 124 :: hexEncode key

/-- Stand-in for protobuf serialization (`proto.Marshal` /
`proto.Unmarshal`), which is external to the repository. -/
structure Codec (Msg : Type) where
  marshal : Msg → Except String Bytes
  unmarshal : Bytes → Except String Msg

/-- Error returned by a `KeyReader` when a key is absent (`ErrNoSuchKey`). -/
def ErrNoSuchKey : String := "no such key"

/-- A `KeyReader.Get` over a KV snapshot: look the pair up and decode it,
`ErrNoSuchKey` when absent. -/
def krGet {Msg : Type} (codec : Codec Msg) (kr : KVData) (bucket key : Bytes) :
    Except String Msg :=
  match kvLookup kr bucket key with
  | some bs => codec.unmarshal bs
  | none => .error ErrNoSuchKey

/-- One recorded write of the overlay (`op` in batch_mutator.go). -/
structure op (Msg : Type) where
  Key : Bytes
  Bucket : Bytes
  Value : Msg
deriving DecidableEq

/-- The in-batch overlay (`mapNoLockDB` in batch_mutator.go): a map from
encoded string keys to marshalled bytes, the parent `KeyReader`, and the
ordered replay list of write operations. -/
structure mapNoLockDB (Msg : Type) where
  M : List (List Nat × Bytes)
  Parent : KVData
  L : List (op Msg)
deriving DecidableEq

/-- `mapNoLockDB.Get`: consult the overlay map first (unmarshalling the
stored bytes), else delegate to the parent reader. -/
def mapNoLockDB.Get {Msg : Type} (codec : Codec Msg) (m : mapNoLockDB Msg)
    (bucket key : Bytes) : Except String Msg :=
  match mapLookup m.M (keyFor bucket key) with
  | some b => codec.unmarshal b
  | none => krGet codec m.Parent bucket key

/-- `mapNoLockDB.Set`: marshal the value, store the bytes in the overlay
map and append the operation to the ordered replay list `L`.  The parent
is never written. -/
def mapNoLockDB.Set {Msg : Type} (codec : Codec Msg) (m : mapNoLockDB Msg)
    (bucket key : Bytes) (value : Msg) : Except String (mapNoLockDB Msg) :=
  match codec.marshal value with
  | .error e => .error e
  | .ok b =>
    .ok { m with M := (keyFor bucket key, b) :: m.M,
                 L := m.L ++ [{ Bucket := bucket, Key := key, Value := value }] }

/-- Apply a sequence of `Set` operations to an overlay, stopping at the
first error (as the applier would). -/
def applySets {Msg : Type} (codec : Codec Msg) :
    mapNoLockDB Msg → List (op Msg) → Except String (mapNoLockDB Msg)
  | db, [] => .ok db
  | db, o :: rest =>
    match mapNoLockDB.Set codec db o.Bucket o.Key o.Value with
    | .error e => .error e
    | .ok db' => applySets codec db' rest

/-- The value of the most recent operation in `ops` addressing the given
bucket/key pair, if any. -/
def lastSet {Msg : Type} (ops : List (op Msg)) (b k : Bytes) : Option Msg :=
  (ops.reverse.find? (fun o => decide (o.Bucket = b ∧ o.Key = k))).map (fun o => o.Value)

/-- Replaying an ordered operation list into a fresh key-value writer:
the writer state after all operations, with later writes shadowing
earlier ones (the front of the list is the newest binding). -/
def replayState {Msg : Type} (L : List (op Msg)) : List ((Bytes × Bytes) × Msg) :=
  L.foldl (fun kv o => ((o.Bucket, o.Key), o.Value) :: kv) []

/-- Relation between an overlay value (a message) and the overlay map's
stored bytes: absent on both sides, or present with a successful
marshalling. -/
def LookupRel {Msg : Type} (codec : Codec Msg) (mv : Option Msg) (mb : Option Bytes) : Prop :=
  match mv with
  | none => mb = none
  | some v => ∃ bs, codec.marshal v = .ok bs ∧ mb = some bs

/-- A log reference (`pb.LogRef`): object name and log type enum value. -/
structure LogRef where
  Name : List Nat
  LogType : Int
deriving DecidableEq

/-- `pb.LogCreateRequest`. -/
structure LogCreateRequest where
  Log : LogRef
deriving DecidableEq

/-- The enum value `pb.LogType_STRUCT_TYPE_LOG` (the plain log kind). -/
def STRUCT_TYPE_LOG : Int := 0

/-- A mutation record (`pb.Mutation`).  Only the `LogCreate` field is
inspected by the sources at hand; all other mutations are opaque. -/
inductive Mutation where
  | logCreate (req : LogCreateRequest)
  | other (tag : List Nat)
deriving DecidableEq

/-- One item of the batch mutator's channel (`chObject`). -/
structure chObject where
  ns : Bytes
  mutation : Mutation
deriving DecidableEq

/-- One event observed by the consumer's `select`: a received item, a
closed channel, or the firing of `time.After(Timeout)`. -/
inductive ChEvent where
  | recv (obj : chObject)
  | closed
  | timeout
deriving DecidableEq

/-- The loop of `batchMutatorImpl.handleBatch`.  `apply` stands for
`ApplyMutation` (not among the sources at hand), acting on the writer
state `σ` and the running size.  `sched` is the sequence of channel
events the `select` statement delivers; an exhausted schedule behaves
like a timeout.  The result mirrors the Go returns
`(curSize, nextSeed, error)` with the threaded writer state added. -/
def handleBatchGo {σ : Type} (apply : σ → Int → Mutation → Except String (σ × Int))
    (seed : chObject) :
    σ → Int → chObject → Int → List ChEvent → Except String (σ × Int × Option chObject)
  | kw, curSize, obj, cnt, [] =>
    if seed.ns ≠ obj.ns then
      .ok (kw, curSize, some seed)
    else
      match apply kw curSize obj.mutation with
      | .error e => .error e
      | .ok (kw', curSize') =>
        if cnt - 1 = 0 then .ok (kw', curSize', none)
        else .ok (kw', curSize', none)
  | kw, curSize, obj, cnt, ev :: rest =>
    if seed.ns ≠ obj.ns then
      .ok (kw, curSize, some seed)
    else
      match apply kw curSize obj.mutation with
      | .error e => .error e
      | .ok (kw', curSize') =>
        if cnt - 1 = 0 then .ok (kw', curSize', none)
        else
          match ev with
          | ChEvent.recv obj' => handleBatchGo apply seed kw' curSize' obj' (cnt - 1) rest
          | _ => .ok (kw', curSize', none)

/-- `batchMutatorImpl.handleBatch`: start with `cnt = BatchSize` and the
seed as the first item. -/
def handleBatch {σ : Type} (apply : σ → Int → Mutation → Except String (σ × Int))
    (batchSize : Int) (kw : σ) (startSize : Int) (seed : chObject)
    (sched : List ChEvent) : Except String (σ × Int × Option chObject) :=
  handleBatchGo apply seed kw startSize seed batchSize sched

/-- An operation performed inside the read-write scope opened by
`consume`: a replayed `kw.Set` or the final `writeObjectSize`. -/
inductive RWOp (Msg : Type) where
  | set (bucket key : Bytes) (value : Msg)
  | writeSize (n : Int)
deriving DecidableEq

/-- Observable outcome of one iteration of `consume`'s loop:
either the process aborts via `log.Fatal`, or the iteration finishes
with the final overlay, the next size, the operations of the read-write
scope (`none` when no such scope is opened), and the seed carried to
the next iteration. -/
inductive BatchOutcome (Msg : Type) where
  | fatal (e : String)
  | done (wrapper : mapNoLockDB Msg) (nextSize : Int)
      (rw : Option (List (RWOp Msg))) (nextSeed : Option chObject)
deriving DecidableEq

/-- One iteration of `batchMutatorImpl.consume`: build a fresh overlay
over the read-only snapshot `parent`, read the object size
(`readObjectSize` is not among the sources at hand and is a parameter),
run `handleBatch`, and, when the size grew, open a read-write scope that
replays the overlay's ordered list `L` followed by `writeObjectSize`.
Errors reach `log.Fatal`, which aborts the process. -/
def consumeBatch {Msg : Type}
    (apply : mapNoLockDB Msg → Int → Mutation → Except String (mapNoLockDB Msg × Int))
    (readObjectSize : KVData → Except String Int) (batchSize : Int)
    (parent : KVData) (seed : chObject) (sched : List ChEvent) : BatchOutcome Msg :=
  let wrapper0 : mapNoLockDB Msg := { M := [], Parent := parent, L := [] }
  match readObjectSize parent with
  | .error e => BatchOutcome.fatal e
  | .ok startSize =>
    match handleBatch apply batchSize wrapper0 startSize seed sched with
    | .error e => BatchOutcome.fatal e
    | .ok (wrapper, nextSize, nextSeed) =>
      if nextSize > startSize then
        BatchOutcome.done wrapper nextSize
          (some (wrapper.L.map (fun o => RWOp.set o.Bucket o.Key o.Value) ++
            [RWOp.writeSize nextSize]))
          nextSeed
      else
        BatchOutcome.done wrapper nextSize none nextSeed

/-- `batchMutatorImpl.QueueMutation`: send the item on the channel
(modelled as appending to the queued contents) and return `nil`.
The caller receives no promise and no completion handle. -/
def batchMutatorImpl.QueueMutation (ch : List chObject) (ns : Bytes) (mutation : Mutation) :
    List chObject × Option String :=
  (ch ++ [{ ns := ns, mutation := mutation }], none)

/-- The property of `ApplyMutation` relevant to the batch consumer,
modelled from the spec (ApplyMutation is not among the sources at hand):
a successful application never lowers the size, only appends to the
overlay's replay list, and appends some write exactly when it grows the
size (a duplicate log append writes nothing and keeps the size; any
effective mutation stores data and bumps the size). -/
def ApplierOK {Msg : Type}
    (apply : mapNoLockDB Msg → Int → Mutation → Except String (mapNoLockDB Msg × Int)) : Prop :=
  ∀ db s m db' s', apply db s m = .ok (db', s') →
    s ≤ s' ∧ ∃ Δ, db'.L = db.L ++ Δ ∧ (Δ = [] ↔ s' = s)

/-- The promise returned by the instant mutator (`instancePromise`). -/
structure instancePromise where
  Err : Option String
deriving DecidableEq

/-- `instancePromise.WaitUntilDone` returns the stored error. -/
def instancePromise.WaitUntilDone (p : instancePromise) : Option String := p.Err

/-- `ExecuteUpdate` of the KV substrate, over an abstract store state:
run the body; commit its writes on success, discard them on error, and
return the body's error. -/
def executeUpdate {σ : Type} (st : σ) (body : σ → Except String σ) : Option String × σ :=
  match body st with
  | .ok st' => (none, st')
  | .error e => (some e, st)

/-- `InstantMutator.QueueMutation`: apply the mutation inside its own
read-write scope and return a promise holding the scope's error, paired
with a `nil` immediate error.  `applyM` stands for the two-argument
`ApplyMutation` called in api/service.go. -/
def InstantMutator.QueueMutation {σ : Type} (applyM : σ → Mutation → Except String σ)
    (st : σ) (ns : Bytes) (mutation : Mutation) : (instancePromise × Option String) × σ :=
  let _ := ns
  let r := executeUpdate st (fun kw => applyM kw mutation)
  (({ Err := r.1 }, none), r.2)

/-- `ErrInvalidTreeRange`. -/
def ErrInvalidTreeRange : String := "invalid tree range"

/-- `ErrInvalidRequest`. -/
def ErrInvalidRequest : String := "invalid request"

/-- The error used when persisted state an invariant promises is absent. -/
def ErrInternal : String := "internal error"

/-- `pb.LogTreeHashResponse`: a tree head (size, root hash). -/
structure LogTreeHashResponse where
  TreeSize : Int
  RootHash : Bytes
deriving DecidableEq

/-- Persisted log state visible to `LogTreeHash`: the cached head
(`meta.head`) and the persisted roots by size. -/
structure LogState where
  head : LogTreeHashResponse
  roots : List (Int × Bytes)
deriving DecidableEq

/-- Modelled from the spec: `lookupLogTreeHead` (not among the sources at
hand) returns the cached head `meta.head = (s, computed_root(s))`. -/
def lookupLogTreeHead (st : LogState) : LogTreeHashResponse := st.head

/-- Association lookup among the persisted roots. -/
def rootAt : List (Int × Bytes) → Int → Option Bytes
  | [], _ => none
  | (n0, h) :: rest, n => if n = n0 then some h else rootAt rest n

/-- Modelled from the spec: `lookupLogRootHashBySize` (not among the
sources at hand) returns the Merkle root persisted for a size; its
absence for a persisted size is an internal integrity failure, never an
`ErrInvalidTreeRange`. -/
def lookupLogRootHashBySize (st : LogState) (n : Int) : Except String Bytes :=
  match rootAt st.roots n with
  | some h => .ok h
  | none => .error ErrInternal

/-- `localServiceImpl.LogTreeHash` (service_log_tree_hash.go).
`accessErr` is the result of `verifyAccessForLogOperation` and
`bucketOk` tells whether `logBucket` succeeded; both collaborators are
outside the sources at hand. -/
def localServiceImpl.LogTreeHash (accessErr : Option String) (bucketOk : Bool)
    (st : LogState) (treeSize : Int) : Except String LogTreeHashResponse :=
  match accessErr with
  | some e => .error e
  | none =>
    if treeSize < 0 then .error ErrInvalidTreeRange
    else if bucketOk then
      let head := lookupLogTreeHead st
      if treeSize = 0 ∨ treeSize = head.TreeSize then .ok head
      else if treeSize > head.TreeSize then .error ErrInvalidTreeRange
      else
        match lookupLogRootHashBySize st treeSize with
        | .error e => .error e
        | .ok m => .ok { TreeSize := treeSize, RootHash := m }
    else .error ErrInvalidRequest

/-- Go `strings.Split(s, ",")` for the one-byte separator, on byte lists
(44 is the comma). -/
def splitAll (sep : Nat) : List Nat → List (List Nat)
  | [] => [[]]
  | c :: rest =>
    if c = sep then [] :: splitAll sep rest
    else
      match splitAll sep rest with
      | [] => [[c]]
      | h :: t => (c :: h) :: t

/-- Go `strings.SplitN(s, "/", 2)`: split at the first occurrence of the
separator only (47 is the slash); one piece when the separator is
absent. -/
def splitN2 (sep : Nat) : List Nat → List (List Nat)
  | [] => [[]]
  | c :: rest =>
    if c = sep then [[], rest]
    else
      match splitN2 sep rest with
      | [] => [[c]]
      | h :: t => (c :: h) :: t

/-- ASCII white space as trimmed by Go `strings.TrimSpace` (the header
values at hand are ASCII). -/
def isGoSpace (c : Nat) : Bool := decide ((9 ≤ c ∧ c ≤ 13) ∨ c = 32)

/-- Go `strings.TrimSpace` on byte lists. -/
def trimSpace (s : List Nat) : List Nat :=
  ((s.dropWhile isGoSpace).reverse.dropWhile isGoSpace).reverse

/-- ASCII decimal digit. -/
def isDigitCode (c : Nat) : Bool := decide (48 ≤ c ∧ c ≤ 57)

/-- Go `strconv.Atoi`: optional sign, one or more digits, 64-bit range;
anything else is an error. -/
def atoi (s : List Nat) : Except String Int :=
  let sd : Int × List Nat :=
    match s with
    | 43 :: rest => (1, rest)
    | 45 :: rest => (-1, rest)
    | _ => (1, s)
  if sd.2.isEmpty then .error "atoi: invalid input"
  else if sd.2.all isDigitCode then
    let n : Int := sd.1 * Int.ofNat (sd.2.foldl (fun acc c => 10 * acc + (c - 48)) 0)
    if n < -(2 ^ 63) ∨ 2 ^ 63 - 1 < n then .error "atoi: value out of range"
    else .ok n
  else .error "atoi: invalid input"

/-- Value of one hex digit byte, as accepted by Go `hex.DecodeString`
(digits, lowercase and uppercase letters). -/
def hexDigitVal (c : Nat) : Option (Fin 16) :=
  if h : 48 ≤ c ∧ c ≤ 57 then some ⟨c - 48, by omega⟩
  else if h2 : 97 ≤ c ∧ c ≤ 102 then some ⟨c - 87, by omega⟩
  else if h3 : 65 ≤ c ∧ c ≤ 70 then some ⟨c - 55, by omega⟩
  else none

/-- Go `hex.DecodeString` on byte lists: pairs of hex digits; odd length
or an invalid digit is an error. -/
def hexDecode : List Nat → Except String Bytes
  | [] => .ok []
  | [_] => .error "hex: odd length input"
  | a :: b :: rest =>
    match hexDigitVal a, hexDigitVal b with
    | some x, some y =>
      match hexDecode rest with
      | .error e => .error e
      | .ok t =>
        .ok (⟨16 * x.val + y.val, by have hx := x.isLt; have hy := y.isLt; omega⟩ :: t)
    | _, _ => .error "hex: invalid byte"

/-- The body of the inner loop of `parseHeadersForProof` (client/map.go)
for one comma-separated piece: split at the first slash, parse the index
and the hex value, and store the value when `idx < 256`.  A negative
parsed index makes the Go slice assignment `prv[idx] = bs` panic, which
the embedding reports as an error. -/
def processCommad (prv : List (Option Bytes)) (commad : List Nat) :
    Except String (List (Option Bytes)) :=
  match splitN2 47 commad with
  | [bits0, bits1] =>
    match atoi (trimSpace bits0) with
    | .error e => .error e
    | .ok idx =>
      match hexDecode (trimSpace bits1) with
      | .error e => .error e
      | .ok bs =>
        if idx < 256 then
          if 0 ≤ idx then .ok (prv.set idx.toNat (some bs))
          else .error "runtime panic: index out of range"
        else .ok prv
  | _ => .ok prv

/-- Process a sequence of comma-separated pieces in order, stopping at
the first error, as the nested loops of `parseHeadersForProof` do. -/
def processItems (prv : List (Option Bytes)) :
    List (List Nat) → Except String (List (Option Bytes))
  | [] => .ok prv
  | c :: rest =>
    match processCommad prv c with
    | .error e => .error e
    | .ok prv2 => processItems prv2 rest

/-- `parseHeadersForProof` (client/map.go): start from 256 absent
entries and process every comma-separated piece of every
`X-Verified-Proof` header value in order (an absent header is the empty
list of values; the two nested Go loops traverse exactly the
concatenation of the comma-splits). -/
def parseHeadersForProof (actualHeaders : List (List Nat)) :
    Except String (List (Option Bytes)) :=
  processItems (List.replicate 256 none) ((actualHeaders.map (splitAll 44)).flatten)

/-- The response headers `verifiableMapImpl.Get` inspects: the values of
`X-Verified-Proof` and the value of `X-Verified-TreeSize`. -/
structure RespHeaders where
  VerifiedProof : List (List Nat)
  VerifiedTreeSize : List Nat
deriving DecidableEq

/-- `MapInclusionProof` as assembled by the client. -/
structure MapInclusionProof (V : Type) where
  Value : V
  TreeSize : Int
  AuditPath : List (Option Bytes)
  Key : Bytes
deriving DecidableEq

/-- `verifiableMapImpl.Get` (client/map.go) after the HTTP exchange:
`response` is the outcome of `MakeRequest`, `createFromBytes` the
factory decoding.  `treeSize` only feeds the request URL. -/
def verifiableMapImpl.Get {V : Type} (createFromBytes : Bytes → Except String V)
    (key : Bytes) (treeSize : Int) (response : Except String (Bytes × RespHeaders)) :
    Except String (MapInclusionProof V) :=
  let _ := treeSize
  match response with
  | .error e => .error e
  | .ok (value, headers) =>
    match parseHeadersForProof headers.VerifiedProof with
    | .error e => .error e
    | .ok prv =>
      match createFromBytes value with
      | .error e => .error e
      | .ok rv =>
        match atoi headers.VerifiedTreeSize with
        | .error e => .error e
        | .ok vts =>
          .ok { Value := rv, TreeSize := vts, AuditPath := prv, Key := key }

/-- The promise type of `MutatorService.QueueMutation` as used by
`LocalService.LogCreate`. -/
structure MutatorPromise where
  waitResult : Option String
deriving DecidableEq

/-- `MutatorPromise.WaitUntilDone` returns the stored outcome. -/
def MutatorPromise.WaitUntilDone (p : MutatorPromise) : Option String := p.waitResult

/-- `LocalService.LogCreate`: verify access, require the plain log type
and a non-empty name, then queue the create mutation and wait on its
promise.  `accessErr` is the result of `verifyAccessForLog` and `queue`
the mutator's `QueueMutation`, both collaborators of the function. -/
def LocalService.LogCreate (accessErr : Option String)
    (queue : Mutation → Except String MutatorPromise)
    (req : LogCreateRequest) : Except String Unit :=
  match accessErr with
  | some e => .error e
  | none =>
    if req.Log.LogType ≠ STRUCT_TYPE_LOG then .error ErrInvalidRequest
    else if req.Log.Name.length = 0 then .error ErrInvalidRequest
    else
      match queue (Mutation.logCreate req) with
      | .error e => .error e
      | .ok promise =>
        match promise.WaitUntilDone with
        | some e => .error e
        | none => .ok ()

/-- C1: the consumer loop evaluated at the failing input.  With seed
`(ns = [0], m1)` and the channel delivering the foreign-namespace item
`(ns = [7], m2)`, `handleBatch` applies `m1`, dequeues the foreign item,
and then returns the original — already applied — seed `(ns = [0], m1)`
as the next seed, dropping the foreign item: the claim that the
dequeued foreign-namespace item becomes the next seed, and that no
already-applied mutation is re-seeded, fails on the code (line
`return curSize, seed, nil`, which returns `seed` instead of `obj`). -/
theorem handleBatch_reseeds_applied_seed :
    handleBatch (fun (l : List Mutation) (s : Int) (m : Mutation) => .ok (l ++ [m], s + 1))
        2 [] 0 { ns := [0], mutation := Mutation.other [1] }
        [ChEvent.recv { ns := [7], mutation := Mutation.other [2] }]
      = .ok ([Mutation.other [1]], 1, some { ns := [0], mutation := Mutation.other [1] })
    ∧ ({ ns := [0], mutation := Mutation.other [1] } : chObject)
        ≠ { ns := [7], mutation := Mutation.other [2] } :=
  ⟨rfl, by decide⟩

/-- C2 counterexample: `QueueMutation` hands the caller no promise — its
only result besides the channel effect is the constant `nil` — and when
applying a mutation of the batch fails, the consumer ends in
`log.Fatal` (a process abort): no caller-visible promise fails with the
error, refuting the claimed promise contract at this concrete input. -/
theorem queueMutation_no_promise_on_failure :
    (batchMutatorImpl.QueueMutation [] [0] (Mutation.other [9])).2 = none
    ∧ consumeBatch (fun (_ : mapNoLockDB Bytes) (_ : Int) (_ : Mutation) => .error "boom")
        (fun _ => .ok 0) 2 [] { ns := [0], mutation := Mutation.other [9] } []
      = BatchOutcome.fatal "boom" :=
  ⟨rfl, rfl⟩

/-- C2 amended: `QueueMutation` enqueues the item and returns `nil`
immediately, regardless of the mutation's eventual fate, and an applier
error inside a batch makes the consumer iteration end in `log.Fatal`
with that first error — it commits nothing and delivers the error to no
caller. -/
theorem queueMutation_returns_nil_and_errors_abort (Msg : Type) (ch : List chObject)
    (ns : Bytes) (mutation : Mutation) :
    batchMutatorImpl.QueueMutation ch ns mutation
      = (ch ++ [{ ns := ns, mutation := mutation }], none)
    ∧ (∀ (apply : mapNoLockDB Msg → Int → Mutation → Except String (mapNoLockDB Msg × Int))
        (readObjectSize : KVData → Except String Int) (batchSize : Int)
        (parent : KVData) (seed : chObject) (sched : List ChEvent) (s0 : Int) (e : String),
        readObjectSize parent = .ok s0 →
        handleBatch apply batchSize { M := [], Parent := parent, L := [] } s0 seed sched
          = .error e →
        consumeBatch apply readObjectSize batchSize parent seed sched
          = BatchOutcome.fatal e) := by
  refine ⟨rfl, ?_⟩
  intro apply readObjectSize batchSize parent seed sched s0 e h1 h2
  simp only [consumeBatch, h1, h2]

/-- C2 amended, witness. -/
theorem queueMutation_returns_nil_and_errors_abort_w :
    batchMutatorImpl.QueueMutation [] [0] (Mutation.other [4])
      = ([{ ns := [0], mutation := Mutation.other [4] }], none)
    ∧ consumeBatch (fun (_ : mapNoLockDB Bytes) (_ : Int) (_ : Mutation) => .error "x")
        (fun _ => .ok 0) 1 [] { ns := [0], mutation := Mutation.other [4] } []
      = BatchOutcome.fatal "x" := by
  have h := queueMutation_returns_nil_and_errors_abort Bytes [] [0] (Mutation.other [4])
  exact ⟨h.1, h.2 (fun _ _ _ => .error "x") (fun _ => .ok 0) 1 []
    { ns := [0], mutation := Mutation.other [4] } [] 0 "x" rfl rfl⟩

/-- C3 counterexample: on a non-empty log (current head of size 1), a
`LogTreeHash` request with `tree_size = 0` returns the current head —
size 1 with its real root — not a tree head of size 0 with the all-zero
root: the code treats `tree_size = 0` as a request for the cached
latest head. -/
theorem logTreeHash_zero_on_nonempty_log :
    localServiceImpl.LogTreeHash none true
        { head := { TreeSize := 1, RootHash := List.replicate 32 1 },
          roots := [(1, List.replicate 32 1)] } 0
      = .ok { TreeSize := 1, RootHash := List.replicate 32 1 }
    ∧ localServiceImpl.LogTreeHash none true
        { head := { TreeSize := 1, RootHash := List.replicate 32 1 },
          roots := [(1, List.replicate 32 1)] } 0
      ≠ .ok { TreeSize := 0, RootHash := List.replicate 32 0 } :=
  ⟨rfl, fun h => absurd (congrArg LogTreeHashResponse.TreeSize (Except.ok.inj h)) (by decide)⟩

/-- C3 amended: for every log state, an authorized well-formed
`LogTreeHash` request with `tree_size = 0` returns the log's current
cached tree head; only for an empty log is that head of size 0. -/
theorem logTreeHash_zero_returns_current_head (st : LogState) :
    localServiceImpl.LogTreeHash none true st 0 = .ok (lookupLogTreeHead st) := rfl

/-- C7 counterexample: the two mutators do not implement the same
`QueueMutation` interface.  For a mutation whose transaction fails with
an error, the instant mutator returns a promise whose `WaitUntilDone`
yields that error, while the batch mutator (even configured with
`BatchSize = 1` and `Timeout = 0`, i.e. an immediately ending batch)
returns only an immediate `nil` — no promise — and the failure ends in
`log.Fatal` instead of any caller-visible result. -/
theorem instant_and_batch_interfaces_differ :
    instancePromise.WaitUntilDone
        (InstantMutator.QueueMutation (fun (_ : Nat) (_ : Mutation) => .error "boom")
          0 [0] (Mutation.other [3])).1.1
      = some "boom"
    ∧ (batchMutatorImpl.QueueMutation [] [0] (Mutation.other [3])).2 = none
    ∧ consumeBatch (fun (_ : mapNoLockDB Bytes) (_ : Int) (_ : Mutation) => .error "boom")
        (fun _ => .ok 0) 1 [] { ns := [0], mutation := Mutation.other [3] } []
      = BatchOutcome.fatal "boom" :=
  ⟨rfl, rfl, rfl⟩

/-- C7 amended: the instant mutator applies each mutation inside its own
read-write scope, and the promise it returns yields through
`WaitUntilDone` exactly the error (or `nil`) produced by that
single-mutation transaction, committing the new state exactly on
success; its immediate error result is always `nil`.  (Unlike the batch
mutator, whose `QueueMutation` returns no promise at all.) -/
theorem instantMutator_wait_yields_txn_error {σ : Type}
    (applyM : σ → Mutation → Except String σ) (st : σ) (ns : Bytes) (mutation : Mutation) :
    instancePromise.WaitUntilDone
        (InstantMutator.QueueMutation applyM st ns mutation).1.1
      = (match applyM st mutation with | .ok _ => none | .error e => some e)
    ∧ (InstantMutator.QueueMutation applyM st ns mutation).2
      = (match applyM st mutation with | .ok st' => st' | .error _ => st)
    ∧ (InstantMutator.QueueMutation applyM st ns mutation).1.2 = none := by
  unfold InstantMutator.QueueMutation executeUpdate instancePromise.WaitUntilDone
  cases h : applyM st mutation <;> simp [h]

/-- C4: an authorized, well-formed `LogTreeHash` call fails with
`InvalidTreeRange` precisely when the requested size is negative or
exceeds the log's current persisted size (the cached head's size). -/
theorem logTreeHash_invalid_range_iff (st : LogState) (treeSize : Int)
    (hst : 0 ≤ st.head.TreeSize) :
    localServiceImpl.LogTreeHash none true st treeSize = .error ErrInvalidTreeRange
      ↔ (treeSize < 0 ∨ treeSize > st.head.TreeSize) := by
  have hne : ErrInternal ≠ ErrInvalidTreeRange := by decide
  unfold localServiceImpl.LogTreeHash lookupLogTreeHead lookupLogRootHashBySize
  by_cases h1 : treeSize < 0
  · simp [h1]
  · by_cases h2 : treeSize = 0 ∨ treeSize = st.head.TreeSize
    · have h3 : ¬ treeSize > st.head.TreeSize := by rcases h2 with h | h <;> omega
      simp [h1, h2, h3]
    · by_cases h3 : treeSize > st.head.TreeSize
      · simp [h1, h2, h3]
      · cases hr : rootAt st.roots treeSize with
        | none => simp [h1, h2, h3, hr, hne]
        | some m => simp [h1, h2, h3, hr]

/-- C4, witness. -/
theorem logTreeHash_invalid_range_iff_w :
    localServiceImpl.LogTreeHash none true
        { head := { TreeSize := 2, RootHash := List.replicate 32 1 }, roots := [] } 5
      = .error ErrInvalidTreeRange
      ↔ ((5 : Int) < 0 ∨ (5 : Int) > 2) :=
  logTreeHash_invalid_range_iff
    { head := { TreeSize := 2, RootHash := List.replicate 32 1 }, roots := [] } 5 (by decide)

theorem hexDigitCode_inj {d d' : Nat} (hd : d < 16) (hd' : d' < 16)
    (h : hexDigitCode d = hexDigitCode d') : d = d' := by
  unfold hexDigitCode at h
  split_ifs at h <;> omega

theorem hexDigitCode_ne_bar {d : Nat} (hd : d < 16) : hexDigitCode d ≠ 124 := by
  unfold hexDigitCode
  split_ifs <;> omega

theorem bar_not_mem_hexEncode (bs : Bytes) : ¬ (124 ∈ hexEncode bs) := by
  induction bs with
  | nil => intro h; simp [hexEncode] at h
  | cons b rest ih =>
    intro h
    have hb := b.isLt
    simp only [hexEncode, hexEncByte, List.cons_append, List.nil_append,
      List.mem_cons] at h
    rcases h with h | h | h
    · exact hexDigitCode_ne_bar (by omega) h.symm
    · exact hexDigitCode_ne_bar (by omega) h.symm
    · exact ih h

theorem hexEncode_inj : ∀ {a b : Bytes}, hexEncode a = hexEncode b → a = b
  | [], [], _ => rfl
  | [], _ :: _, h => by simp [hexEncode, hexEncByte] at h
  | _ :: _, [], h => by simp [hexEncode, hexEncByte] at h
  | x :: xs, y :: ys, h => by
    simp only [hexEncode, hexEncByte, List.cons_append, List.nil_append,
      List.cons.injEq] at h
    obtain ⟨h1, h2, h3⟩ := h
    have hx := x.isLt
    have hy := y.isLt
    have e1 : x.val / 16 = y.val / 16 := hexDigitCode_inj (by omega) (by omega) h1
    have e2 : x.val % 16 = y.val % 16 := hexDigitCode_inj (by omega) (by omega) h2
    have exy : x = y := Fin.ext (by omega)
    rw [exy, hexEncode_inj h3]

theorem append_bar_inj : ∀ (a c x y : List Nat), ¬ (124 ∈ a) → ¬ (124 ∈ c) →
    a ++ 124 :: x = c ++ 124 :: y → a = c ∧ x = y
  | [], [], x, y, _, _, h => by
    simp only [List.nil_append, List.cons.injEq] at h
    exact ⟨rfl, h.2⟩
  | [], c0 :: cs, x, y, _, hc, h => by
    simp only [List.nil_append, List.cons_append, List.cons.injEq] at h
    exact absurd (by rw [h.1]; exact List.mem_cons_self c0 cs) hc
  | a0 :: as, [], x, y, ha, _, h => by
    simp only [List.nil_append, List.cons_append, List.cons.injEq] at h
    exact absurd (by rw [← h.1]; exact List.mem_cons_self a0 as) ha
  | a0 :: as, c0 :: cs, x, y, ha, hc, h => by
    simp only [List.cons_append, List.cons.injEq] at h
    have hrec := append_bar_inj as cs x y
      (fun hm => ha (List.mem_cons_of_mem _ hm))
      (fun hm => hc (List.mem_cons_of_mem _ hm)) h.2
    exact ⟨by rw [h.1, hrec.1], hrec.2⟩

theorem keyFor_inj {b k b' k' : Bytes} (h : keyFor b k = keyFor b' k') :
    b = b' ∧ k = k' := by
  unfold keyFor at h
  obtain ⟨h1, h2⟩ := append_bar_inj _ _ _ _
    (bar_not_mem_hexEncode b) (bar_not_mem_hexEncode b') h
  exact ⟨hexEncode_inj h1, hexEncode_inj h2⟩

theorem lastSet_snoc {Msg : Type} (ops : List (op Msg)) (o : op Msg) (b k : Bytes) :
    lastSet (ops ++ [o]) b k
      = if o.Bucket = b ∧ o.Key = k then some o.Value else lastSet ops b k := by
  unfold lastSet
  rw [List.reverse_append]
  simp only [List.reverse_singleton, List.singleton_append]
  by_cases h : o.Bucket = b ∧ o.Key = k
  · rw [List.find?_cons_of_pos _ (by simp [h])]
    simp [h]
  · rw [List.find?_cons_of_neg _ (by simp [h])]
    simp [h]

/-- Invariant of `applySets`: starting from an overlay whose map agrees
with its recorded operations `ops0`, a successful run extends the replay
list in order, leaves the parent alone, and keeps the overlay map in
last-write-wins agreement with the recorded operations. -/
theorem applySets_inv {Msg : Type} (codec : Codec Msg) :
    ∀ (ops ops0 : List (op Msg)) (db db' : mapNoLockDB Msg),
      db.L = ops0 →
      (∀ b k, LookupRel codec (lastSet ops0 b k) (mapLookup db.M (keyFor b k))) →
      applySets codec db ops = .ok db' →
      db'.Parent = db.Parent ∧ db'.L = ops0 ++ ops ∧
        (∀ b k, LookupRel codec (lastSet (ops0 ++ ops) b k)
          (mapLookup db'.M (keyFor b k)))
  | [], ops0, db, db', hL, hRel, h => by
    cases h
    exact ⟨rfl, by simpa using hL, by simpa using hRel⟩
  | o :: rest, ops0, db, db', hL, hRel, h => by
    simp only [applySets, mapNoLockDB.Set] at h
    cases hm : codec.marshal o.Value with
    | error e => rw [hm] at h; nomatch h
    | ok bs =>
      rw [hm] at h
      have hrec := applySets_inv codec rest (ops0 ++ [o])
        { db with M := (keyFor o.Bucket o.Key, bs) :: db.M, L := db.L ++ [o] } db'
        (by simp [hL])
        (by
          intro b k
          rw [lastSet_snoc]
          by_cases hbk : o.Bucket = b ∧ o.Key = k
          · have hkey : keyFor b k = keyFor o.Bucket o.Key := by rw [hbk.1, hbk.2]
            simp only [hbk, if_true, mapLookup, hkey, if_pos rfl]
            exact ⟨bs, hm, rfl⟩
          · have hkey : keyFor b k ≠ keyFor o.Bucket o.Key := by
              intro hk
              obtain ⟨e1, e2⟩ := keyFor_inj hk
              exact hbk ⟨e1.symm, e2.symm⟩
            simp only [hbk, if_false, mapLookup, if_neg hkey]
            exact hRel b k)
        h
      refine ⟨hrec.1, ?_, ?_⟩
      · rw [hrec.2.1, List.append_assoc]; rfl
      · intro b k
        have := hrec.2.2 b k
        rwa [List.append_assoc] at this

/-- C6: the overlay gives read-your-writes within a batch.  For every
sequence of successful `Set` operations on a fresh overlay over
`parent`, `Get` on a bucket/key pair returns the value of the most
recent `Set` to that pair when one occurred and otherwise delegates to
the parent `KeyReader`; every `Set` is appended in order to the replay
list `L` and the parent is never written.  The round-trip hypothesis
`hrt` is the contract of protobuf serialization, which is external to
the repository. -/
theorem overlay_read_your_writes {Msg : Type} (codec : Codec Msg)
    (hrt : ∀ v bs, codec.marshal v = .ok bs → codec.unmarshal bs = .ok v)
    (parent : KVData) (ops : List (op Msg)) (db : mapNoLockDB Msg)
    (h : applySets codec { M := [], Parent := parent, L := [] } ops = .ok db)
    (bucket key : Bytes) :
    mapNoLockDB.Get codec db bucket key
      = (match lastSet ops bucket key with
         | some v => .ok v
         | none => krGet codec parent bucket key)
    ∧ db.L = ops ∧ db.Parent = parent := by
  obtain ⟨hP, hL, hRel⟩ :=
    applySets_inv codec ops [] { M := [], Parent := parent, L := [] } db rfl
      (fun b k => rfl) h
  rw [List.nil_append] at hL
  refine ⟨?_, hL, hP⟩
  have hRel' := hRel bucket key
  rw [List.nil_append] at hRel'
  unfold mapNoLockDB.Get
  cases hls : lastSet ops bucket key with
  | none =>
    rw [hls] at hRel'
    unfold LookupRel at hRel'
    rw [hRel', hP]
  | some v =>
    rw [hls] at hRel'
    obtain ⟨bs, hm, hb⟩ := hRel'
    rw [hb]
    exact hrt v bs hm

/-- C6, witness: one `Set` of value `[7]` at bucket `[2]`, key `[3]`,
read back through the overlay. -/
theorem overlay_read_your_writes_w :
    mapNoLockDB.Get (⟨fun v => .ok v, fun bs => .ok bs⟩ : Codec Bytes)
        { M := [(keyFor [2] [3], [7])], Parent := [(([1], [2]), [9])],
          L := [{ Key := [3], Bucket := [2], Value := [7] }] } [2] [3]
      = .ok [7]
    ∧ ({ M := [(keyFor [2] [3], [7])], Parent := [(([1], [2]), [9])],
         L := [{ Key := [3], Bucket := [2], Value := [7] }] } : mapNoLockDB Bytes).L
      = [{ Key := [3], Bucket := [2], Value := [7] }]
    ∧ ({ M := [(keyFor [2] [3], [7])], Parent := [(([1], [2]), [9])],
         L := [{ Key := [3], Bucket := [2], Value := [7] }] } : mapNoLockDB Bytes).Parent
      = [(([1], [2]), [9])] := by
  have h := overlay_read_your_writes (⟨fun v => .ok v, fun bs => .ok bs⟩ : Codec Bytes)
    (fun v bs hv => by cases hv; rfl) [(([1], [2]), [9])]
    [{ Key := [3], Bucket := [2], Value := [7] }]
    { M := [(keyFor [2] [3], [7])], Parent := [(([1], [2]), [9])],
      L := [{ Key := [3], Bucket := [2], Value := [7] }] } rfl [2] [3]
  exact ⟨h.1, h.2.1, h.2.2⟩

theorem lastSet_cons {Msg : Type} (o : op Msg) (rest : List (op Msg)) (b k : Bytes) :
    lastSet (o :: rest) b k
      = (match lastSet rest b k with
         | some v => some v
         | none => if o.Bucket = b ∧ o.Key = k then some o.Value else none) := by
  unfold lastSet
  rw [List.reverse_cons, List.find?_append]
  cases hf : List.find? (fun o => decide (o.Bucket = b ∧ o.Key = k)) rest.reverse with
  | some o' => rfl
  | none =>
    by_cases h : o.Bucket = b ∧ o.Key = k
    · rw [List.find?_cons_of_pos _ (by simp [h])]
      simp [h]
    · rw [List.find?_cons_of_neg _ (by simp [h])]
      simp [h]

theorem kvLookup_foldl {Msg : Type} :
    ∀ (L : List (op Msg)) (kv : List ((Bytes × Bytes) × Msg)) (b k : Bytes),
      kvLookup (L.foldl (fun kv o => ((o.Bucket, o.Key), o.Value) :: kv) kv) b k
        = (match lastSet L b k with
           | some v => some v
           | none => kvLookup kv b k)
  | [], kv, b, k => by simp [lastSet]
  | o :: rest, kv, b, k => by
    rw [List.foldl_cons, kvLookup_foldl rest, lastSet_cons]
    cases lastSet rest b k with
    | some v => rfl
    | none =>
      show kvLookup (((o.Bucket, o.Key), o.Value) :: kv) b k = _
      by_cases h : o.Bucket = b ∧ o.Key = k
      · simp [kvLookup, h.1, h.2]
      · have h' : ¬ (b = o.Bucket ∧ k = o.Key) := fun hc => h ⟨hc.1.symm, hc.2.symm⟩
        simp [kvLookup, h, h']

theorem kvLookup_replayState {Msg : Type} (L : List (op Msg)) (b k : Bytes) :
    kvLookup (replayState L) b k = lastSet L b k := by
  unfold replayState
  rw [kvLookup_foldl]
  cases lastSet L b k <;> rfl

/-- C8: replaying the overlay's ordered operation list into a fresh
key-value writer reproduces the overlay map's final contents.  For every
batch of successful `Set` operations, the last-write-wins state of the
replay of `db.L` agrees, pointwise over bucket/key pairs, with the
overlay map `db.M` (each present value marshalling to exactly the bytes
the overlay stores); in particular later `Set`s to the same pair
overwrite earlier ones, which is the `lastSet` equation. -/
theorem replay_reproduces_overlay {Msg : Type} (codec : Codec Msg)
    (parent : KVData) (ops : List (op Msg)) (db : mapNoLockDB Msg)
    (h : applySets codec { M := [], Parent := parent, L := [] } ops = .ok db)
    (bucket key : Bytes) :
    kvLookup (replayState db.L) bucket key = lastSet db.L bucket key
    ∧ LookupRel codec (kvLookup (replayState db.L) bucket key)
        (mapLookup db.M (keyFor bucket key)) := by
  obtain ⟨hP, hL, hRel⟩ :=
    applySets_inv codec ops [] { M := [], Parent := parent, L := [] } db rfl
      (fun b k => rfl) h
  rw [List.nil_append] at hL
  have hRel' := hRel bucket key
  rw [List.nil_append] at hRel'
  refine ⟨kvLookup_replayState db.L bucket key, ?_⟩
  rw [kvLookup_replayState, hL]
  exact hRel'

/-- C8, witness: two `Set`s to the same pair; the replay's last write
wins and agrees with the overlay map. -/
theorem replay_reproduces_overlay_w :
    kvLookup (replayState [{ Key := [3], Bucket := [2], Value := ([7] : Bytes) },
        { Key := [3], Bucket := [2], Value := [8] }]) [2] [3]
      = lastSet [{ Key := [3], Bucket := [2], Value := ([7] : Bytes) },
        { Key := [3], Bucket := [2], Value := [8] }] [2] [3]
    ∧ LookupRel (⟨fun v => .ok v, fun bs => .ok bs⟩ : Codec Bytes)
        (kvLookup (replayState [{ Key := [3], Bucket := [2], Value := ([7] : Bytes) },
          { Key := [3], Bucket := [2], Value := [8] }]) [2] [3])
        (mapLookup [(keyFor [2] [3], [8]), (keyFor [2] [3], [7])] (keyFor [2] [3])) := by
  have h := replay_reproduces_overlay (⟨fun v => .ok v, fun bs => .ok bs⟩ : Codec Bytes)
    [] [{ Key := [3], Bucket := [2], Value := ([7] : Bytes) },
        { Key := [3], Bucket := [2], Value := [8] }]
    { M := [(keyFor [2] [3], [8]), (keyFor [2] [3], [7])], Parent := [],
      L := [{ Key := [3], Bucket := [2], Value := [7] },
            { Key := [3], Bucket := [2], Value := [8] }] } rfl [2] [3]
  exact h

/-- Invariant of the batch loop for an applier with the `ApplierOK`
property: a successful `handleBatchGo` run never lowers the size, only
appends to the overlay's replay list, and appends something exactly when
the size grew. -/
theorem handleBatchGo_L {Msg : Type}
    (apply : mapNoLockDB Msg → Int → Mutation → Except String (mapNoLockDB Msg × Int))
    (hA : ApplierOK apply) (seed : chObject) :
    ∀ (sched : List ChEvent) (db : mapNoLockDB Msg) (s : Int) (obj : chObject) (cnt : Int)
      (db' : mapNoLockDB Msg) (s' : Int) (nsd : Option chObject),
      handleBatchGo apply seed db s obj cnt sched = .ok (db', s', nsd) →
      s ≤ s' ∧ ∃ Δ, db'.L = db.L ++ Δ ∧ (Δ = [] ↔ s' = s) := by
  intro sched
  induction sched with
  | nil =>
    intro db s obj cnt db' s' nsd h
    rw [handleBatchGo] at h
    by_cases hns : seed.ns ≠ obj.ns
    · rw [if_pos hns] at h
      cases h
      exact ⟨le_refl s, [], by simp⟩
    · rw [if_neg hns] at h
      cases ha : apply db s obj.mutation with
      | error e => rw [ha] at h; nomatch h
      | ok p =>
        obtain ⟨db1, s1⟩ := p
        simp only [ha] at h
        obtain ⟨hle, Δ, hΔ, hiff⟩ := hA db s obj.mutation db1 s1 ha
        by_cases hcnt : cnt - 1 = 0
        · rw [if_pos hcnt] at h
          cases h
          exact ⟨hle, Δ, hΔ, hiff⟩
        · rw [if_neg hcnt] at h
          cases h
          exact ⟨hle, Δ, hΔ, hiff⟩
  | cons ev rest ih =>
    intro db s obj cnt db' s' nsd h
    rw [handleBatchGo] at h
    by_cases hns : seed.ns ≠ obj.ns
    · rw [if_pos hns] at h
      cases h
      exact ⟨le_refl s, [], by simp⟩
    · rw [if_neg hns] at h
      cases ha : apply db s obj.mutation with
      | error e => rw [ha] at h; nomatch h
      | ok p =>
        obtain ⟨db1, s1⟩ := p
        simp only [ha] at h
        obtain ⟨hle, Δ, hΔ, hiff⟩ := hA db s obj.mutation db1 s1 ha
        by_cases hcnt : cnt - 1 = 0
        · rw [if_pos hcnt] at h
          cases h
          exact ⟨hle, Δ, hΔ, hiff⟩
        · rw [if_neg hcnt] at h
          cases ev with
          | recv obj2 =>
            obtain ⟨hle2, Δ2, hΔ2, hiff2⟩ := ih db1 s1 obj2 (cnt - 1) db' s' nsd h
            refine ⟨le_trans hle hle2, Δ ++ Δ2, ?_, ?_⟩
            · rw [hΔ2, hΔ, List.append_assoc]
            · constructor
              · intro hnil
                have h1 : Δ = [] := by
                  cases List.append_eq_nil.mp hnil with
                  | intro h1 h2 => exact h1
                have h2 : Δ2 = [] := by
                  cases List.append_eq_nil.mp hnil with
                  | intro h1 h2 => exact h2
                have e1 := hiff.mp h1
                have e2 := hiff2.mp h2
                omega
              · intro he
                have e1 : s1 = s := by omega
                have e2 : s' = s1 := by omega
                rw [hiff.mpr e1, hiff2.mpr e2]
                rfl
          | closed =>
            cases h
            exact ⟨hle, Δ, hΔ, hiff⟩
          | timeout =>
            cases h
            exact ⟨hle, Δ, hΔ, hiff⟩

/-- C5: after the consumer closes its read-only scope, a read-write
scope is opened exactly when writes accumulated in the batch overlay
(its replay list `L` is non-empty), and the scope replays the ordered
write list verbatim — the same operations in the same order — followed
by the final size.  `ApplierOK` is the spec-modelled property of
`ApplyMutation`, which is not among the sources at hand. -/
theorem consume_rw_scope_iff_writes {Msg : Type}
    (apply : mapNoLockDB Msg → Int → Mutation → Except String (mapNoLockDB Msg × Int))
    (readObjectSize : KVData → Except String Int) (batchSize : Int)
    (parent : KVData) (seed : chObject) (sched : List ChEvent)
    (w : mapNoLockDB Msg) (n : Int) (rw : Option (List (RWOp Msg))) (nsd : Option chObject)
    (hA : ApplierOK apply)
    (h : consumeBatch apply readObjectSize batchSize parent seed sched
          = BatchOutcome.done w n rw nsd) :
    (rw.isSome ↔ w.L ≠ [])
    ∧ (∀ ops, rw = some ops →
        ops = w.L.map (fun o => RWOp.set o.Bucket o.Key o.Value) ++ [RWOp.writeSize n]) := by
  simp only [consumeBatch] at h
  cases hro : readObjectSize parent with
  | error e => simp only [hro] at h; nomatch h
  | ok s0 =>
    simp only [hro] at h
    cases hb : handleBatch apply batchSize { M := [], Parent := parent, L := [] } s0 seed sched with
    | error e => simp only [hb] at h; nomatch h
    | ok t =>
      obtain ⟨w1, n1, nsd1⟩ := t
      simp only [hb] at h
      obtain ⟨hle, Δ, hΔ, hiff⟩ :=
        handleBatchGo_L apply hA seed sched { M := [], Parent := parent, L := [] }
          s0 seed batchSize w1 n1 nsd1 hb
      by_cases hgt : n1 > s0
      · rw [if_pos hgt] at h
        cases h
        constructor
        · simp only [Option.isSome_some, true_iff]
          rw [hΔ]
          simp only [List.nil_append] at *
          intro hΔnil
          have := hiff.mp hΔnil
          omega
        · intro ops hops
          cases hops
          rfl
      · rw [if_neg hgt] at h
        cases h
        constructor
        · simp only [Option.isSome_none, false_iff, ne_eq, not_not]
          rw [hΔ]
          have : Δ = [] := hiff.mpr (by omega)
          simp [this]
        · intro ops hops
          nomatch hops

/-- C5, witness: a two-item batch whose applier writes one operation and
bumps the size per mutation opens a read-write scope replaying both
operations and the final size. -/
theorem consume_rw_scope_iff_writes_w :
    ((some ([RWOp.set [2] [3] ([7] : Bytes), RWOp.set [2] [3] [7], RWOp.writeSize 2]) :
        Option (List (RWOp Bytes))).isSome
      ↔ ({ M := [], Parent := [],
            L := [{ Key := [3], Bucket := [2], Value := [7] },
              { Key := [3], Bucket := [2], Value := [7] }] } : mapNoLockDB Bytes).L ≠ [])
    ∧ (∀ ops, (some ([RWOp.set [2] [3] ([7] : Bytes), RWOp.set [2] [3] [7], RWOp.writeSize 2]) :
          Option (List (RWOp Bytes))) = some ops →
        ops = ({ M := [], Parent := [],
                  L := [{ Key := [3], Bucket := [2], Value := [7] },
                    { Key := [3], Bucket := [2], Value := [7] }] } : mapNoLockDB Bytes).L.map
            (fun o => RWOp.set o.Bucket o.Key o.Value) ++ [RWOp.writeSize 2]) := by
  have h := consume_rw_scope_iff_writes
    (fun db s _ => .ok ({ db with
      L := db.L ++ [{ Key := [3], Bucket := [2], Value := ([7] : Bytes) }] }, s + 1))
    (fun _ => .ok 0) 2 [] { ns := [0], mutation := Mutation.other [] }
    [ChEvent.recv { ns := [0], mutation := Mutation.other [1] }]
    { M := [], Parent := [],
      L := [{ Key := [3], Bucket := [2], Value := [7] },
            { Key := [3], Bucket := [2], Value := [7] }] } 2
    (some ([RWOp.set [2] [3] [7], RWOp.set [2] [3] [7], RWOp.writeSize 2])) none
    (by
      intro db s m db' s' happ
      simp only [Except.ok.injEq, Prod.mk.injEq] at happ
      refine ⟨by omega, [{ Key := [3], Bucket := [2], Value := [7] }], ?_, ?_⟩
      · rw [← happ.1]
      · constructor
        · intro hc; nomatch hc
        · intro hc; omega)
    (by rfl)
  exact h

theorem processCommad_length (prv prv' : List (Option Bytes)) (c : List Nat)
    (h : processCommad prv c = .ok prv') : prv'.length = prv.length := by
  unfold processCommad at h
  cases hs : splitN2 47 c with
  | nil => rw [hs] at h; cases h; rfl
  | cons bits0 t =>
    cases t with
    | nil => rw [hs] at h; cases h; rfl
    | cons bits1 t2 =>
      cases t2 with
      | cons b2 t3 => rw [hs] at h; cases h; rfl
      | nil =>
        simp only [hs] at h
        cases ha : atoi (trimSpace bits0) with
        | error e => simp only [ha] at h; nomatch h
        | ok idx =>
          simp only [ha] at h
          cases hh : hexDecode (trimSpace bits1) with
          | error e => simp only [hh] at h; nomatch h
          | ok bs =>
            simp only [hh] at h
            by_cases hi : idx < 256
            · rw [if_pos hi] at h
              by_cases hz : 0 ≤ idx
              · rw [if_pos hz] at h
                cases h
                simp [List.length_set]
              · rw [if_neg hz] at h; nomatch h
            · rw [if_neg hi] at h; cases h; rfl

theorem processItems_length :
    ∀ (l : List (List Nat)) (prv prv' : List (Option Bytes)),
      processItems prv l = .ok prv' → prv'.length = prv.length
  | [], prv, prv', h => by cases h; rfl
  | c :: t, prv, prv', h => by
    unfold processItems at h
    cases hc : processCommad prv c with
    | error e => rw [hc] at h; nomatch h
    | ok p1 =>
      rw [hc] at h
      exact (processItems_length t p1 prv' h).trans (processCommad_length prv p1 c hc)

theorem parseHeadersForProof_length (hs : List (List Nat)) (prv' : List (Option Bytes))
    (h : parseHeadersForProof hs = .ok prv') : prv'.length = 256 := by
  unfold parseHeadersForProof at h
  rw [processItems_length _ _ _ h, List.length_replicate]

/-- C9: a successful client-side map `Get` returns a `MapInclusionProof`
whose `AuditPath` has exactly 256 entries (absent headers leave all 256
entries absent), and any `X-Verified-Proof` piece parsing to an index of
256 or more is ignored — it leaves the collected path unchanged rather
than being stored. -/
theorem mapGet_audit_path_256 :
    (∀ (V : Type) (createFromBytes : Bytes → Except String V) (key : Bytes)
        (treeSize : Int) (response : Except String (Bytes × RespHeaders))
        (p : MapInclusionProof V),
        verifiableMapImpl.Get createFromBytes key treeSize response = .ok p →
        p.AuditPath.length = 256)
    ∧ (∀ (prv : List (Option Bytes)) (commad bits0 bits1 : List Nat) (idx : Int)
        (bs : Bytes),
        splitN2 47 commad = [bits0, bits1] →
        atoi (trimSpace bits0) = .ok idx →
        hexDecode (trimSpace bits1) = .ok bs →
        256 ≤ idx →
        processCommad prv commad = .ok prv)
    ∧ parseHeadersForProof [] = .ok (List.replicate 256 none) := by
  refine ⟨?_, ?_, rfl⟩
  · intro V createFromBytes key treeSize response p h
    unfold verifiableMapImpl.Get at h
    cases response with
    | error e => nomatch h
    | ok vh =>
      obtain ⟨value, headers⟩ := vh
      simp only at h
      cases hp : parseHeadersForProof headers.VerifiedProof with
      | error e => rw [hp] at h; nomatch h
      | ok prv =>
        rw [hp] at h
        cases hc : createFromBytes value with
        | error e => rw [hc] at h; nomatch h
        | ok rv =>
          rw [hc] at h
          cases ha : atoi headers.VerifiedTreeSize with
          | error e => rw [ha] at h; nomatch h
          | ok vts =>
            rw [ha] at h
            cases h
            exact parseHeadersForProof_length _ _ hp
  · intro prv commad bits0 bits1 idx bs h1 h2 h3 h4
    unfold processCommad
    simp only [h1, h2, h3]
    rw [if_neg (by omega)]

/-- C9, witness: a successful `Get` whose response carries the header
piece `0/aa` yields a 256-entry audit path, and a piece with index 300
is ignored. -/
theorem mapGet_audit_path_256_w :
    ({ Value := ([5] : Bytes), TreeSize := 7,
        AuditPath := (List.replicate 256 (none : Option Bytes)).set 0 (some [170]),
        Key := [1] } : MapInclusionProof Bytes).AuditPath.length = 256
    ∧ processCommad (List.replicate 256 none) [51, 48, 48, 47, 97, 97]
      = .ok (List.replicate 256 none) := by
  constructor
  · exact mapGet_audit_path_256.1 Bytes (fun b => .ok b) [1] 1
      (.ok ([5], { VerifiedProof := [[48, 47, 97, 97]], VerifiedTreeSize := [55] }))
      { Value := [5], TreeSize := 7,
        AuditPath := (List.replicate 256 (none : Option Bytes)).set 0 (some [170]),
        Key := [1] } (by rfl)
  · exact mapGet_audit_path_256.2.1 (List.replicate 256 none) [51, 48, 48, 47, 97, 97]
      [51, 48, 48] [97, 97] 300 [170] (by rfl) (by rfl) (by rfl) (by omega)

/-- C10: for an authorized `LogCreate` request, the call returns
`InvalidRequest` exactly when the log's type is not the plain log kind
or its name is empty; otherwise the create mutation is queued and the
call succeeds exactly when the mutation's promise completes without
error.  The hypotheses state that the mutator's own failures are never
the `InvalidRequest` error (they are queueing or storage errors). -/
theorem logCreate_invalid_request_iff
    (queue : Mutation → Except String MutatorPromise) (req : LogCreateRequest)
    (hq : ∀ m e, queue m = .error e → e ≠ ErrInvalidRequest)
    (hw : ∀ m p e, queue m = .ok p → p.WaitUntilDone = some e → e ≠ ErrInvalidRequest) :
    (LocalService.LogCreate none queue req = .error ErrInvalidRequest
      ↔ (req.Log.LogType ≠ STRUCT_TYPE_LOG ∨ req.Log.Name.length = 0))
    ∧ ((req.Log.LogType = STRUCT_TYPE_LOG ∧ req.Log.Name.length ≠ 0) →
        ∀ p, queue (Mutation.logCreate req) = .ok p →
          (LocalService.LogCreate none queue req = .ok () ↔ p.WaitUntilDone = none)) := by
  unfold LocalService.LogCreate
  by_cases h1 : req.Log.LogType ≠ STRUCT_TYPE_LOG
  · simp [h1]
  · by_cases h2 : req.Log.Name.length = 0
    · simp [h1, h2]
    · cases hqr : queue (Mutation.logCreate req) with
      | error e =>
        have hne := hq _ _ hqr
        constructor
        · simp [h1, h2, hne]
        · intro hok p hp
          nomatch hp
      | ok p =>
        cases hwr : p.WaitUntilDone with
        | some e =>
          have hne := hw _ _ _ hqr hwr
          constructor
          · simp [h1, h2, hwr, hne]
          · intro hok p' hp'
            cases hp'
            simp [h1, h2, hwr]
        | none =>
          constructor
          · simp [h1, h2, hwr]
          · intro hok p' hp'
            cases hp'
            simp [h1, h2, hwr]

/-- C10, witness. -/
theorem logCreate_invalid_request_iff_w :
    (LocalService.LogCreate none (fun _ => .ok { waitResult := none })
        { Log := { Name := [97], LogType := 0 } } = .error ErrInvalidRequest
      ↔ (({ Log := { Name := [97], LogType := 0 } } : LogCreateRequest).Log.LogType
            ≠ STRUCT_TYPE_LOG
          ∨ ({ Log := { Name := [97], LogType := 0 } } : LogCreateRequest).Log.Name.length
            = 0))
    ∧ ((({ Log := { Name := [97], LogType := 0 } } : LogCreateRequest).Log.LogType
          = STRUCT_TYPE_LOG
        ∧ ({ Log := { Name := [97], LogType := 0 } } : LogCreateRequest).Log.Name.length
          ≠ 0) →
        ∀ p, (fun (_ : Mutation) => (.ok { waitResult := none } :
            Except String MutatorPromise)) (Mutation.logCreate
              { Log := { Name := [97], LogType := 0 } }) = .ok p →
          (LocalService.LogCreate none (fun _ => .ok { waitResult := none })
              { Log := { Name := [97], LogType := 0 } } = .ok ()
            ↔ p.WaitUntilDone = none)) :=
  logCreate_invalid_request_iff (fun _ => .ok { waitResult := none })
    { Log := { Name := [97], LogType := 0 } }
    (fun _ e h => by cases h)
    (fun _ p e h1 h2 => by cases h1; cases h2)

end VDS
